import Mathlib

/-!
# A shallow embedding of the `headers` typed-header codec layer

This file embeds the core of the `headers-core` / `headers-ext` crates:

* `HeaderName` / `HeaderValue` byte-level validation (from the `http` crate,
  an external collaborator of this code base),
* the `Values` read cursor and the `ToValues` write accumulator state machine
  (`headers-core/src/lib.rs`),
* the store-extension operations `typed_insert` / `typed_get`
  (`impl HeaderMapExt for http::HeaderMap`),
* the catalog types `AccessControlAllowHeaders`
  (`headers-ext/src/common/access_control_allow_headers.rs`) and `Referer`
  (`headers-ext/src/common/referer.rs`, whose `Header` impl is derived),
* the `HeaderValueString` validated-text wrapper
  (`headers-ext/src/util/value_string.rs`).

Bytes are modelled as `Nat` (with explicit range checks where the Rust code
relies on `u8`), byte strings as `List Nat`, and the `http::HeaderMap`
multi-map as a function from header names to the ordered list of raw values
stored under that name.  Rust functions that can panic are modelled with
`Option`, `none` standing for the panic.
-/

/-! ## Byte-level validation (the `http` collaborator crate) -/

/-- Legality of a single `HeaderValue` byte, as checked by
`http::header::HeaderValue::from_shared` / `from_static` / `from_str`:
a byte is valid iff `b >= 32 && b != 127 || b == 9` (with `b : u8`). -/
def isLegalValueByte (b : Nat) : Bool :=
  (32 ≤ b && b ≠ 127 && b ≤ 255) || b == 9

/-- The `http` crate's header-name character table: lowercase letters, digits
and the RFC 7230 token specials are valid and map to themselves; uppercase
letters are valid and map to their lowercase form; everything else is
invalid.  Used by `HeaderName::from_bytes`. -/
def nameCharLower (b : Nat) : Option Nat :=
  if 97 ≤ b && b ≤ 122 then some b
  else if 65 ≤ b && b ≤ 90 then some (b + 32)
  else if 48 ≤ b && b ≤ 57 then some b
  else if b == 33 || b == 35 || b == 36 || b == 37 || b == 38 || b == 39 ||
          b == 42 || b == 43 || b == 45 || b == 46 || b == 94 || b == 95 ||
          b == 96 || b == 124 || b == 126 then some b
  else none

/-- Map every byte through `nameCharLower`, failing if any byte is invalid
(the validation loop inside `HeaderName::from_bytes`). -/
def mapNameChars : List Nat → Option (List Nat)
  | [] => some []
  | b :: rest =>
    match nameCharLower b, mapNameChars rest with
    | some c, some cs => some (c :: cs)
    | _, _ => none

/-- An interned header field name; held in its canonical lowercase byte form. -/
structure HeaderName where
  bytes : List Nat
deriving DecidableEq, Repr

/-- `http::header::HeaderName::from_bytes`: fails on an empty input or on any
invalid byte, otherwise produces the lowercased canonical name. -/
def HeaderName.from_bytes (bs : List Nat) : Option HeaderName :=
  if bs.isEmpty then none
  else (mapNameChars bs).map (fun cs => HeaderName.mk cs)

/-- An opaque raw header value (a validated byte sequence in the transport
library; legality is checked at its construction seams). -/
structure HeaderValue where
  bytes : List Nat
deriving DecidableEq, Repr

/-- `http::header::HeaderValue::from_shared`: accepts the byte string iff
every byte is a legal value byte, `none` modelling the `Err` return. -/
def HeaderValue.from_shared (bs : List Nat) : Option HeaderValue :=
  if bs.all isLegalValueByte then some (HeaderValue.mk bs) else none

/-- `http::header::HeaderValue::from_name`: a `HeaderValue` whose bytes are
the name's canonical (lowercase) bytes; always legal, never fails. -/
def HeaderValue.from_name (n : HeaderName) : HeaderValue :=
  HeaderValue.mk n.bytes

/-! ## The `Values` read cursor (`headers-core/src/lib.rs`, lines 41-80) -/

/-- An iterator of `HeaderValue`s supplied to `Header::decode`: the raw
values not yet consumed, plus the `should_exhaust` flag (set to `true` by
`typed_get`, cleared by `skip_exhaustive_iter_check`). -/
structure Values where
  inner : List HeaderValue
  should_exhaust : Bool
deriving DecidableEq, Repr

/-- `Iterator::next` on `Values`: pops the front raw value, if any. -/
def Values.next (v : Values) : Option HeaderValue × Values :=
  match v.inner with
  | [] => (none, v)
  | x :: rest => (some x, { v with inner := rest })

/-- `Values::skip_exhaustive_iter_check`: clears the exhaustion flag so that
leftover unconsumed values no longer fail the decode. -/
def Values.skip_exhaustive_iter_check (v : Values) : Values :=
  { v with should_exhaust := false }

/-! ## The `ToValues` accumulator (`headers-core/src/lib.rs`, lines 82-131) -/

/-- The `State` of a `ToValues` accumulator: `First` wraps the entry for the
header's name before any append (holding the prior raw values, whether the
entry was occupied or vacant); `Latter` holds the values written so far.
(The source's transient `Tmp` state is unreachable and not modelled.) -/
inductive TvState where
  | First (prior : List HeaderValue)
  | Latter (current : List HeaderValue)
deriving DecidableEq, Repr

/-- `ToValues::append`: on the first append, `Entry::Occupied → e.insert`
(which removes all previous values) and `Entry::Vacant → insert_entry` both
leave exactly the one new value; every later append adds to the list. -/
def TvState.append : TvState → HeaderValue → TvState
  | .First _, v => .Latter [v]
  | .Latter cur, v => .Latter (cur ++ [v])

/-- `ToValues::append_fmt`: formats the argument (here: the already-formatted
text, as bytes), converts via `HeaderValue::from_shared`, and appends;
`none` models the `panic!` on an illegal `HeaderValue`. -/
def TvState.append_fmt (st : TvState) (s : List Nat) : Option TvState :=
  match HeaderValue.from_shared s with
  | some v => some (st.append v)
  | none => none

/-! ## The store and the extension operations (`HeaderMapExt`) -/

/-- The `http::HeaderMap`, viewed per name: the ordered list of raw values
stored under each header name (`[]` when the name is absent). -/
def HeaderMap := HeaderName → List HeaderValue

/-- Rewrite the raw-value list stored under one name. -/
def HeaderMap.update (m : HeaderMap) (n : HeaderName) (vs : List HeaderValue) : HeaderMap :=
  fun k => if k = n then vs else m k

/-- The empty `http::HeaderMap`. -/
def emptyMap : HeaderMap := fun _ => []

/-- A `Header` trait implementation: the static header name, `decode` (which
consumes values from the cursor and may toggle its flag, so it returns the
final cursor state alongside the result), and `encode` (whose only effect is
the ordered sequence of `ToValues::append` calls it performs, modelled as the
list of appended values). -/
structure HeaderImpl (H : Type) where
  name : HeaderName
  decode : Values → Option H × Values
  encode : H → List HeaderValue

/-- `HeaderMapExt::typed_insert`: open the entry for `H::NAME`, wrap it in a
fresh `ToValues` in state `First`, run `encode`, and commit.  If `encode`
never appends, the entry is left untouched. -/
def typed_insert {H : Type} (impl : HeaderImpl H) (h : H) (m : HeaderMap) : HeaderMap :=
  match (impl.encode h).foldl TvState.append (.First (m impl.name)) with
  | .First _ => m
  | .Latter cur => m.update impl.name cur

/-- The leftover-check applied by `typed_get` after `decode` returns:
`if !values.should_exhaust || values.next().is_none() { Some(header) } else { None }`. -/
def decodeResultWithPolicy {H : Type} (p : Option H × Values) : Option H :=
  match p with
  | (none, _) => none
  | (some h, after) =>
    if !after.should_exhaust || after.inner.isEmpty then some h else none

/-- `HeaderMapExt::typed_get`: build a cursor over all raw values under
`H::NAME` (with `should_exhaust = true`), call `H::decode`, then apply the
exhaustiveness policy.  Note: `decode` is called unconditionally, even when
no raw values are stored under the name. -/
def typed_get {H : Type} (impl : HeaderImpl H) (m : HeaderMap) : Option H :=
  decodeResultWithPolicy
    (impl.decode { inner := m impl.name, should_exhaust := true })

/-! ## `AccessControlAllowHeaders` (headers-ext) -/

/-- `Access-Control-Allow-Headers`: a vector of `HeaderName`s. -/
structure AccessControlAllowHeaders where
  names : List HeaderName
deriving DecidableEq, Repr

/-- `AccessControlAllowHeaders::iter`: iterate the contained names. -/
def AccessControlAllowHeaders.iter (h : AccessControlAllowHeaders) : List HeaderName :=
  h.names

/-- `AccessControlAllowHeaders::decode`: run the whole cursor through
`filter_map(|v| HeaderName::from_bytes(v.as_bytes()).ok())`, recording in
`ok` whether every conversion succeeded, and succeed iff the collected vector
is non-empty and `ok`.  The `filter_map(...).collect()` drains the cursor, so
the returned cursor has an empty `inner` and an unchanged flag. -/
def AccessControlAllowHeaders.decode (values : Values) :
    Option AccessControlAllowHeaders × Values :=
  let results := values.inner.map (fun v => HeaderName.from_bytes v.bytes)
  let ok := results.all Option.isSome
  let vec := results.filterMap id
  (if !vec.isEmpty && ok then some (AccessControlAllowHeaders.mk vec) else none,
   { values with inner := [] })

/-- `AccessControlAllowHeaders::encode`: one `values.append(HeaderValue::from_name(val))`
per contained name, in order. -/
def AccessControlAllowHeaders.encode (h : AccessControlAllowHeaders) : List HeaderValue :=
  h.names.map HeaderValue.from_name

/-- The name constant `ACCESS_CONTROL_ALLOW_HEADERS` ("access-control-allow-headers"). -/
def accessControlAllowHeadersName : HeaderName :=
  HeaderName.mk [97, 99, 99, 101, 115, 115, 45, 99, 111, 110, 116, 114, 111, 108,
                 45, 97, 108, 108, 111, 119, 45, 104, 101, 97, 100, 101, 114, 115]

/-- The `Header` impl of `AccessControlAllowHeaders`. -/
def accessControlAllowHeadersImpl : HeaderImpl AccessControlAllowHeaders :=
  { name := accessControlAllowHeadersName
    decode := AccessControlAllowHeaders.decode
    encode := AccessControlAllowHeaders.encode }

/-! ## `Referer` (headers-ext) -/

/-- `Referer`: a single opaque `HeaderValue`. -/
structure Referer where
  value : HeaderValue
deriving DecidableEq, Repr

/-- Modelled from the spec: `Referer`'s `Header` impl comes from
`#[derive(Header)]` (the derive crate is not part of these sources); per the
single-opaque-value codec of the spec, decode takes exactly one value from
the cursor (failing when the cursor is already exhausted) and stores it
verbatim. -/
def Referer.decode (values : Values) : Option Referer × Values :=
  match values.next with
  | (some v, after) => (some (Referer.mk v), after)
  | (none, after) => (none, after)

/-- Modelled from the spec: the derived encode appends the stored raw value
verbatim, as a single `append` call. -/
def Referer.encode (r : Referer) : List HeaderValue :=
  [r.value]

/-- The name constant `REFERER` ("referer"). -/
def refererName : HeaderName :=
  HeaderName.mk [114, 101, 102, 101, 114, 101, 114]

/-- The `Header` impl of `Referer`. -/
def refererImpl : HeaderImpl Referer :=
  { name := refererName
    decode := Referer.decode
    encode := Referer.encode }

/-! ## Comma-separated list items (for the list-codec claims)

The spec's flat comma-joined list codec talks about the comma-separated
items of a raw value after optional-whitespace trimming, each item being an
RFC 7230 token (here: a legal header-name item). -/

/-- Optional whitespace: space or horizontal tab. -/
def isOWS (b : Nat) : Bool := b == 32 || b == 9

/-- Trim optional whitespace from both ends of a byte string. -/
def trimBytes (bs : List Nat) : List Nat :=
  ((bs.dropWhile isOWS).reverse.dropWhile isOWS).reverse

/-- Split a byte string at every comma (byte 44). -/
def splitComma : List Nat → List (List Nat)
  | [] => [[]]
  | b :: rest =>
    let r := splitComma rest
    if b == 44 then [] :: r
    else
      match r with
      | h :: t => (b :: h) :: t
      | [] => [[b]]

/-- Item-level validation: a non-empty run of legal header-name characters. -/
def isToken (bs : List Nat) : Bool :=
  !bs.isEmpty && bs.all (fun b => (nameCharLower b).isSome)

/-- A raw value contains an invalid item when some comma-separated part,
after trimming, fails token validation. -/
def containsInvalidItem (bs : List Nat) : Bool :=
  (splitComma bs).any (fun item => !isToken (trimBytes item))

/-! ## `HeaderValueString` (headers-ext `util/value_string.rs`) -/

/-- UTF-8 continuation byte: `0x80 ..= 0xBF`. -/
def isUtf8Cont (b : Nat) : Bool := 128 ≤ b && b ≤ 191

/-- Validity of a byte string as UTF-8 (the property `str::from_utf8`
checks), by the standard first-byte table: ASCII; 2-byte `C2..DF`; 3-byte
`E0 A0..BF`, `E1..EC`, `ED 80..9F` (no surrogates), `EE..EF`; 4-byte
`F0 90..BF`, `F1..F3`, `F4 80..8F` (up to `U+10FFFF`); each followed by
continuation bytes. -/
def utf8ValidBytes : List Nat → Bool
  | [] => true
  | b :: rest =>
    if b ≤ 127 then utf8ValidBytes rest
    else if 194 ≤ b && b ≤ 223 then
      match rest with
      | c1 :: r => isUtf8Cont c1 && utf8ValidBytes r
      | [] => false
    else if b == 224 then
      match rest with
      | c1 :: c2 :: r => (160 ≤ c1 && c1 ≤ 191) && isUtf8Cont c2 && utf8ValidBytes r
      | _ => false
    else if 225 ≤ b && b ≤ 236 then
      match rest with
      | c1 :: c2 :: r => isUtf8Cont c1 && isUtf8Cont c2 && utf8ValidBytes r
      | _ => false
    else if b == 237 then
      match rest with
      | c1 :: c2 :: r => (128 ≤ c1 && c1 ≤ 159) && isUtf8Cont c2 && utf8ValidBytes r
      | _ => false
    else if 238 ≤ b && b ≤ 239 then
      match rest with
      | c1 :: c2 :: r => isUtf8Cont c1 && isUtf8Cont c2 && utf8ValidBytes r
      | _ => false
    else if b == 240 then
      match rest with
      | c1 :: c2 :: c3 :: r =>
        (144 ≤ c1 && c1 ≤ 191) && isUtf8Cont c2 && isUtf8Cont c3 && utf8ValidBytes r
      | _ => false
    else if 241 ≤ b && b ≤ 243 then
      match rest with
      | c1 :: c2 :: c3 :: r =>
        isUtf8Cont c1 && isUtf8Cont c2 && isUtf8Cont c3 && utf8ValidBytes r
      | _ => false
    else if b == 244 then
      match rest with
      | c1 :: c2 :: c3 :: r =>
        (128 ≤ c1 && c1 ≤ 143) && isUtf8Cont c2 && isUtf8Cont c3 && utf8ValidBytes r
      | _ => false
    else false

/-- A Rust `String` / `&str`: a byte string carrying the UTF-8 validity
invariant the Rust type system guarantees of its argument. -/
def Utf8Str := { bs : List Nat // utf8ValidBytes bs = true }

/-- A value that is both a valid `HeaderValue` and `String`
(`headers-ext/src/util/value_string.rs`).  Per the source comment, the field
is only ever set to values that are also valid `String`s; that invariant is
proved below of every constructor, not baked into the type. -/
structure HeaderValueString where
  value : HeaderValue
deriving DecidableEq, Repr

/-- `HeaderValueString::from_val`: accepts the `HeaderValue` iff
`val.to_str().is_ok()`, i.e. iff its bytes are valid UTF-8, and wraps a
clone of it. -/
def HeaderValueString.from_val (val : HeaderValue) : Option HeaderValueString :=
  if utf8ValidBytes val.bytes then some (HeaderValueString.mk val) else none

/-- `HeaderValueString::from_string`: converts the `String`'s bytes through
`HeaderValue::from_shared`, failing when some byte is not a legal value
byte. -/
def HeaderValueString.from_string (src : Utf8Str) : Option HeaderValueString :=
  (HeaderValue.from_shared src.val).map (fun v => HeaderValueString.mk v)

/-- `HeaderValueString::from_static`: wraps `HeaderValue::from_static`,
whose panic on an illegal byte is modelled by `none`. -/
def HeaderValueString.from_static (src : Utf8Str) : Option HeaderValueString :=
  (HeaderValue.from_shared src.val).map (fun v => HeaderValueString.mk v)

/-- `FromStr for HeaderValueString`: `src.parse::<HeaderValue>()`, which
validates the same value-byte legality; the `FromStrError` case is `none`. -/
def HeaderValueString.from_str (src : Utf8Str) : Option HeaderValueString :=
  (HeaderValue.from_shared src.val).map (fun v => HeaderValueString.mk v)

/-- `HeaderValueString::as_str`: reinterprets the wrapped value's bytes as a
string without rechecking UTF-8 (`str::from_utf8_unchecked`); the returned
string's bytes are exactly the wrapped bytes. -/
def HeaderValueString.as_str (h : HeaderValueString) : List Nat :=
  h.value.bytes

/-! ## Concrete values used by witnesses and counterexamples -/

/-- The bytes of "/People.html#tim". -/
def peopleBytes : List Nat :=
  [47, 80, 101, 111, 112, 108, 101, 46, 104, 116, 109, 108, 35, 116, 105, 109]

/-- The name "cache-control". -/
def cacheControlName : HeaderName :=
  HeaderName.mk [99, 97, 99, 104, 101, 45, 99, 111, 110, 116, 114, 111, 108]

/-- The name "if-range". -/
def ifRangeName : HeaderName := HeaderName.mk [105, 102, 45, 114, 97, 110, 103, 101]

/-- A map holding the raw values ["foo", "bar"] under the Referer name. -/
def fooBarRefererMap : HeaderMap :=
  emptyMap.update refererName
    [HeaderValue.mk [102, 111, 111], HeaderValue.mk [98, 97, 114]]

/-- A map holding the sole raw value "a, b" under the
Access-Control-Allow-Headers name. -/
def commaJoinedMap : HeaderMap :=
  emptyMap.update accessControlAllowHeadersName [HeaderValue.mk [97, 44, 32, 98]]

/-- A map holding the two raw values "a" and "b" under the
Access-Control-Allow-Headers name. -/
def twoLineMap : HeaderMap :=
  emptyMap.update accessControlAllowHeadersName
    [HeaderValue.mk [97], HeaderValue.mk [98]]

/-- A map holding the sole raw value "foo foo, bar" under the
Access-Control-Allow-Headers name. -/
def invalidItemMap : HeaderMap :=
  emptyMap.update accessControlAllowHeadersName
    [HeaderValue.mk [102, 111, 111, 32, 102, 111, 111, 44, 32, 98, 97, 114]]

/-- A degenerate but legal `Header` implementor whose decode consumes nothing
and always succeeds (`fn decode(_: &mut Values) -> Option<Self> { Some(ConstHeader) }`). -/
structure ConstHeader where
deriving DecidableEq, Repr

/-- The `Header` impl of `ConstHeader`, bound to the name "x-demo". -/
def constHeaderImpl : HeaderImpl ConstHeader :=
  { name := HeaderName.mk [120, 45, 100, 101, 109, 111]
    decode := fun v => (some ConstHeader.mk, v)
    encode := fun _ => [] }

/-- A legal `Header` implementor that calls `skip_exhaustive_iter_check` and
then succeeds without consuming anything. -/
structure SkipHeader where
deriving DecidableEq, Repr

/-- The `Header` impl of `SkipHeader`, bound to the Referer name. -/
def skipHeaderImpl : HeaderImpl SkipHeader :=
  { name := refererName
    decode := fun v => (some SkipHeader.mk, v.skip_exhaustive_iter_check)
    encode := fun _ => [] }

/-- Well-formedness of a `HeaderName` instance: it is in canonical form, the
fixed point of `HeaderName::from_bytes` on its own bytes (true of every name
the `http` crate can hand out). -/
def HeaderName.wf (n : HeaderName) : Prop :=
  HeaderName.from_bytes n.bytes = some n

instance (n : HeaderName) : Decidable n.wf := by
  unfold HeaderName.wf; infer_instance

/-! ## Helper lemmas -/

theorem tvFold_latter (vs : List HeaderValue) (cur : List HeaderValue) :
    vs.foldl TvState.append (.Latter cur) = .Latter (cur ++ vs) := by
  induction vs generalizing cur with
  | nil => simp
  | cons v vs ih =>
    rw [List.foldl_cons]
    show vs.foldl TvState.append (.Latter (cur ++ [v])) = _
    rw [ih]
    simp

theorem typed_insert_eq_update {H : Type} (impl : HeaderImpl H) (h : H) (m : HeaderMap)
    (henc : impl.encode h ≠ []) :
    typed_insert impl h m = m.update impl.name (impl.encode h) := by
  unfold typed_insert
  rcases he : impl.encode h with _ | ⟨v, vs⟩
  · exact absurd he henc
  · rw [List.foldl_cons]
    show (match vs.foldl TvState.append (.Latter [v]) with
          | TvState.First _ => m
          | TvState.Latter cur => m.update impl.name cur) = _
    rw [tvFold_latter]
    rfl

theorem decodeResultWithPolicy_eq_none {H : Type} (p : Option H × Values)
    (h : p.1 = none) : decodeResultWithPolicy p = none := by
  rcases p with ⟨_ | x, after⟩
  · rfl
  · simp at h

theorem mapNameChars_eq_none {bs : List Nat} {b : Nat} (hb : b ∈ bs)
    (hnone : nameCharLower b = none) : mapNameChars bs = none := by
  induction bs with
  | nil => cases hb
  | cons x xs ih =>
    rcases List.mem_cons.mp hb with rfl | hb
    · unfold mapNameChars
      rw [hnone]
    · unfold mapNameChars
      rw [ih hb]
      rcases nameCharLower x with _ | c <;> rfl

theorem from_bytes_eq_none {bs : List Nat} {b : Nat} (hb : b ∈ bs)
    (hnone : nameCharLower b = none) : HeaderName.from_bytes bs = none := by
  unfold HeaderName.from_bytes
  rw [mapNameChars_eq_none hb hnone]
  simp

theorem splitComma_eq_single {bs : List Nat} (h : 44 ∉ bs) : splitComma bs = [bs] := by
  induction bs with
  | nil => rfl
  | cons x xs ih =>
    have h1 : ¬(44 = x) ∧ 44 ∉ xs := by simpa [List.mem_cons] using h
    unfold splitComma
    rw [ih h1.2]
    simp [Ne.symm h1.1]

theorem dropWhile_eq_self_of (p : Nat → Bool) (l : List Nat)
    (h : ∀ b ∈ l, p b = false) : l.dropWhile p = l := by
  cases l with
  | nil => rfl
  | cons x xs =>
    rw [List.dropWhile_cons]
    simp [h x (List.mem_cons_self x xs)]

theorem trimBytes_eq_self {bs : List Nat} (h : ∀ b ∈ bs, isOWS b = false) :
    trimBytes bs = bs := by
  unfold trimBytes
  rw [dropWhile_eq_self_of _ _ h]
  rw [dropWhile_eq_self_of _ _ (fun b hb => h b (List.mem_reverse.mp hb))]
  exact List.reverse_reverse bs

theorem from_bytes_none_of_invalid_item {bs : List Nat}
    (hbad : containsInvalidItem bs = true) : HeaderName.from_bytes bs = none := by
  by_cases hc : 44 ∈ bs
  · exact from_bytes_eq_none hc (by decide)
  · unfold containsInvalidItem at hbad
    rw [splitComma_eq_single hc] at hbad
    simp only [List.any_cons, List.any_nil, Bool.or_false, Bool.not_eq_true'] at hbad
    by_cases hw : ∃ b ∈ bs, isOWS b = true
    · obtain ⟨b, hbmem, hbows⟩ := hw
      have hb' : b = 32 ∨ b = 9 := by
        simpa [isOWS] using hbows
      have : nameCharLower b = none := by
        rcases hb' with rfl | rfl <;> decide
      exact from_bytes_eq_none hbmem this
    · have h' : ∀ b ∈ bs, isOWS b = false := by
        intro b hb
        cases hov : isOWS b
        · rfl
        · exact absurd ⟨b, hb, hov⟩ hw
      rw [trimBytes_eq_self h'] at hbad
      unfold isToken at hbad
      by_cases he : bs.isEmpty
      · unfold HeaderName.from_bytes
        rw [if_pos he]
      · simp only [he, Bool.not_false, Bool.true_and] at hbad
        have : ∃ b ∈ bs, ¬((nameCharLower b).isSome = true) := by
          rw [← List.all_eq_false]
          exact hbad
        obtain ⟨b, hbmem, hbs⟩ := this
        have : nameCharLower b = none := by
          rcases hcc : nameCharLower b with _ | c
          · rfl
          · rw [hcc] at hbs
            simp at hbs
        exact from_bytes_eq_none hbmem this

theorem acah_decode_fst_none {vs : List HeaderValue} {e : Bool} {v : HeaderValue}
    (hv : v ∈ vs) (hnone : HeaderName.from_bytes v.bytes = none) :
    (AccessControlAllowHeaders.decode { inner := vs, should_exhaust := e }).1 = none := by
  unfold AccessControlAllowHeaders.decode
  have hall : (vs.map (fun v => HeaderName.from_bytes v.bytes)).all Option.isSome = false := by
    rw [List.all_eq_false]
    exact ⟨HeaderName.from_bytes v.bytes, List.mem_map_of_mem _ hv, by simp [hnone]⟩
  simp [hall]

/-! ## Claim theorems -/

/-- **C3** (amended): provided the second instance's encode performs at least
one append, inserting H twice leaves under H's name exactly the raw values
produced by the second encode call — never a union of both insertions'
values; and the first append of each `ToValues` accumulator replaces any
prior occupant while every subsequent append within the same encode call
appends. -/
theorem typed_insert_replace_semantics (H : Type) (impl : HeaderImpl H)
    (h1 h2 : H) (m : HeaderMap) (henc : impl.encode h2 ≠ []) :
    typed_insert impl h2 (typed_insert impl h1 m) impl.name = impl.encode h2 ∧
    (∀ (prior : List HeaderValue) (v : HeaderValue),
      TvState.append (.First prior) v = .Latter [v]) ∧
    (∀ (cur : List HeaderValue) (v : HeaderValue),
      TvState.append (.Latter cur) v = .Latter (cur ++ [v])) := by
  refine ⟨?_, fun _ _ => rfl, fun _ _ => rfl⟩
  rw [typed_insert_eq_update impl h2 _ henc]
  simp [HeaderMap.update]

/-- **C3** counterexample: for `H = AccessControlAllowHeaders`,
`h1 = ["cache-control"]` and `h2 = []` (whose encode appends nothing),
inserting `h1` then `h2` leaves `h1`'s raw value under the name, which is
not the (empty) list of raw values produced by `h2`'s encode call — so the
claim as stated, quantified over all instances, is false. -/
theorem typed_insert_replace_cex :
    accessControlAllowHeadersImpl.encode (AccessControlAllowHeaders.mk []) = [] ∧
    typed_insert accessControlAllowHeadersImpl (AccessControlAllowHeaders.mk [])
        (typed_insert accessControlAllowHeadersImpl
          (AccessControlAllowHeaders.mk [cacheControlName]) emptyMap)
        accessControlAllowHeadersImpl.name
      = [HeaderValue.from_name cacheControlName] ∧
    typed_insert accessControlAllowHeadersImpl (AccessControlAllowHeaders.mk [])
        (typed_insert accessControlAllowHeadersImpl
          (AccessControlAllowHeaders.mk [cacheControlName]) emptyMap)
        accessControlAllowHeadersImpl.name
      ≠ accessControlAllowHeadersImpl.encode (AccessControlAllowHeaders.mk []) := by
  refine ⟨rfl, by decide, by decide⟩

/-- **C3** witness: the amended theorem applied with
`h1 = ["if-range"]`, `h2 = ["cache-control"]` over the empty map. -/
theorem typed_insert_replace_semantics_witness :
    accessControlAllowHeadersImpl.encode (AccessControlAllowHeaders.mk [cacheControlName]) ≠ [] ∧
    typed_insert accessControlAllowHeadersImpl (AccessControlAllowHeaders.mk [cacheControlName])
        (typed_insert accessControlAllowHeadersImpl
          (AccessControlAllowHeaders.mk [ifRangeName]) emptyMap)
        accessControlAllowHeadersImpl.name
      = accessControlAllowHeadersImpl.encode (AccessControlAllowHeaders.mk [cacheControlName]) :=
  ⟨by decide,
   (typed_insert_replace_semantics AccessControlAllowHeaders accessControlAllowHeadersImpl
      (AccessControlAllowHeaders.mk [ifRangeName])
      (AccessControlAllowHeaders.mk [cacheControlName]) emptyMap (by decide)).1⟩

/-- **C10**: `typed_insert` mutates only the entry under `H::NAME`: for every
name other than `H::NAME`, the ordered raw-value list stored under that name
is the same before and after the call. -/
theorem typed_insert_frame (H : Type) (impl : HeaderImpl H) (h : H)
    (m : HeaderMap) (n : HeaderName) (hn : n ≠ impl.name) :
    typed_insert impl h m n = m n := by
  unfold typed_insert
  cases hfold : (impl.encode h).foldl TvState.append (.First (m impl.name)) with
  | First p => rfl
  | Latter cur => simp [HeaderMap.update, hn]

/-- **C10** witness: inserting a `Referer` into the empty map leaves the
(distinct) `Access-Control-Allow-Headers` entry untouched. -/
theorem typed_insert_frame_witness :
    accessControlAllowHeadersName ≠ refererImpl.name ∧
    typed_insert refererImpl (Referer.mk (HeaderValue.mk peopleBytes)) emptyMap
        accessControlAllowHeadersName
      = emptyMap accessControlAllowHeadersName :=
  ⟨by decide,
   typed_insert_frame Referer refererImpl (Referer.mk (HeaderValue.mk peopleBytes))
     emptyMap accessControlAllowHeadersName (by decide)⟩

/-- **C5** (code bug): encoding `AccessControlAllowHeaders` holding the two
names `cache-control` and `if-range` performs two separate appends, one raw
value per name — not a single comma-joined raw value as the spec and the
file's own `from_iter` test (`"cache-control, if-range"`) require. -/
theorem acah_encode_one_value_per_name :
    accessControlAllowHeadersImpl.encode
        (AccessControlAllowHeaders.mk [cacheControlName, ifRangeName])
      = [HeaderValue.from_name cacheControlName, HeaderValue.from_name ifRangeName] ∧
    (accessControlAllowHeadersImpl.encode
        (AccessControlAllowHeaders.mk [cacheControlName, ifRangeName])).length ≠ 1 := by
  exact ⟨rfl, by decide⟩

/-- **C4** (code bug): a store holding the single raw value `"a, b"` under
`access-control-allow-headers` decodes to `None` (the whole raw value is fed
to `HeaderName::from_bytes`, which rejects the comma and space; no comma
splitting happens), while a store holding the two raw values `"a"`, `"b"`
decodes to the two names — contradicting the claimed equivalence and the
file's own `iter` test, which expects `["foo, bar"]` to decode to two
names. -/
theorem acah_list_codec_divergence :
    typed_get accessControlAllowHeadersImpl commaJoinedMap = none ∧
    typed_get accessControlAllowHeadersImpl twoLineMap
      = some (AccessControlAllowHeaders.mk [HeaderName.mk [97], HeaderName.mk [98]]) ∧
    (AccessControlAllowHeaders.mk [HeaderName.mk [97], HeaderName.mk [98]]).iter
      = [HeaderName.mk [97], HeaderName.mk [98]] := by
  refine ⟨by decide, by decide, rfl⟩

/-- **C2**: `typed_get` returns `None` exactly when decode fails or when
decode succeeds but leaves at least one raw value unconsumed with the
exhaustion flag still set; if `skip_exhaustive_iter_check` was called during
decode, leftover values do not cause failure; and concretely, for a header
whose decode consumes only `"foo"` from `["foo", "bar"]` without opting out
(`Referer`), `typed_get` returns `None`, not a value built from `"foo"`. -/
theorem typed_get_none_iff :
    (∀ (H : Type) (impl : HeaderImpl H) (m : HeaderMap),
      typed_get impl m = none ↔
        ((impl.decode { inner := m impl.name, should_exhaust := true }).1 = none ∨
         ∃ (h : H) (after : Values),
           impl.decode { inner := m impl.name, should_exhaust := true } = (some h, after) ∧
           after.should_exhaust = true ∧ after.inner ≠ [])) ∧
    (∀ (H : Type) (impl : HeaderImpl H) (m : HeaderMap) (h : H) (after : Values),
      impl.decode { inner := m impl.name, should_exhaust := true } = (some h, after) →
      after.should_exhaust = false →
      typed_get impl m = some h) ∧
    typed_get refererImpl fooBarRefererMap = none := by
  refine ⟨?_, ?_, by decide⟩
  · intro H impl m
    unfold typed_get
    cases hd : impl.decode { inner := m impl.name, should_exhaust := true } with
    | mk res after =>
      rcases res with _ | h
      · simp [decodeResultWithPolicy]
      · rcases after with ⟨inner, se⟩
        cases se <;> cases inner <;>
          simp [decodeResultWithPolicy, List.isEmpty]
        refine ⟨h, _, ⟨rfl, rfl⟩, rfl, ?_⟩
        simp
  · intro H impl m h after hd hse
    unfold typed_get
    rw [hd]
    simp [decodeResultWithPolicy, hse]

/-- **C2** witness: a header whose decode calls `skip_exhaustive_iter_check`
and consumes nothing still decodes successfully from `["foo", "bar"]`. -/
theorem typed_get_none_iff_witness :
    skipHeaderImpl.decode
        { inner := fooBarRefererMap skipHeaderImpl.name, should_exhaust := true }
      = (some SkipHeader.mk,
         { inner := fooBarRefererMap skipHeaderImpl.name, should_exhaust := false }) ∧
    ({ inner := fooBarRefererMap skipHeaderImpl.name,
       should_exhaust := false } : Values).should_exhaust = false ∧
    typed_get skipHeaderImpl fooBarRefererMap = some SkipHeader.mk :=
  ⟨rfl, rfl,
   typed_get_none_iff.2.1 SkipHeader skipHeaderImpl fooBarRefererMap SkipHeader.mk
     { inner := fooBarRefererMap skipHeaderImpl.name, should_exhaust := false }
     rfl rfl⟩

/-- **C6** counterexample: a legal `Header` implementor whose decode always
succeeds without consuming anything (`ConstHeader`) shows that `typed_get`
does invoke `H::decode` even when the store holds no raw values under the
name: on the empty map it returns `Some`, not `None` — absence is passed
into decode as an empty cursor, not short-circuited before it. -/
theorem typed_get_absent_cex :
    emptyMap constHeaderImpl.name = [] ∧
    typed_get constHeaderImpl emptyMap = some ConstHeader.mk :=
  ⟨rfl, by decide⟩

/-- **C6** (amended): when the store contains no raw values under `H`'s
name, `typed_get` still invokes `H::decode`, on an empty cursor, and returns
whatever the decode result is after the exhaustiveness policy; for the
catalog types, whose decode fails on an empty cursor, this means `typed_get`
returns `None` on absence. -/
theorem typed_get_absent_behavior :
    (∀ (H : Type) (impl : HeaderImpl H) (m : HeaderMap), m impl.name = [] →
      typed_get impl m
        = decodeResultWithPolicy (impl.decode { inner := [], should_exhaust := true })) ∧
    (∀ m : HeaderMap, m accessControlAllowHeadersImpl.name = [] →
      typed_get accessControlAllowHeadersImpl m = none) ∧
    (∀ m : HeaderMap, m refererImpl.name = [] →
      typed_get refererImpl m = none) := by
  refine ⟨?_, ?_, ?_⟩
  · intro H impl m hm
    unfold typed_get
    rw [hm]
  · intro m hm
    unfold typed_get
    rw [hm]
    decide
  · intro m hm
    unfold typed_get
    rw [hm]
    decide

/-- **C6** witness: the amended theorem applied to the empty map and
`AccessControlAllowHeaders`. -/
theorem typed_get_absent_behavior_witness :
    emptyMap accessControlAllowHeadersImpl.name = [] ∧
    typed_get accessControlAllowHeadersImpl emptyMap = none :=
  ⟨rfl, typed_get_absent_behavior.2.1 emptyMap rfl⟩

theorem acah_decode_encode (h : AccessControlAllowHeaders)
    (hne : h.names ≠ []) (hwf : ∀ n ∈ h.names, n.wf) :
    AccessControlAllowHeaders.decode
        { inner := AccessControlAllowHeaders.encode h, should_exhaust := true }
      = (some h, { inner := [], should_exhaust := true }) := by
  obtain ⟨names⟩ := h
  have hmap : (AccessControlAllowHeaders.encode ⟨names⟩).map
      (fun v => HeaderName.from_bytes v.bytes) = names.map some := by
    unfold AccessControlAllowHeaders.encode
    rw [List.map_map]
    exact List.map_congr_left (fun n hn => hwf n hn)
  unfold AccessControlAllowHeaders.decode
  simp only [hmap, List.filterMap_map, Function.comp_def, id_eq, List.filterMap_some,
    List.all_map, Option.isSome_some, List.all_eq_true, implies_true]
  have hall : (List.map some names).all Option.isSome = true := by
    simp [List.all_map]
  have hne2 : names.isEmpty = false := by
    cases names with
    | nil => exact absurd (rfl : ({ names := [] } : AccessControlAllowHeaders).names = []) hne
    | cons x xs => rfl
  simp [hall, hne2]

/-- **C1**: for every header type in the catalog and every legal instance,
inserting with `typed_insert` and then calling `typed_get` returns the same
instance (structural equality); in particular, the single-opaque-value
header `Referer`, decoded from the sole raw value `"/People.html#tim"`,
encodes back to exactly that sole raw value. -/
theorem typed_roundtrip :
    (∀ (m : HeaderMap) (h : AccessControlAllowHeaders),
      h.names ≠ [] → (∀ n ∈ h.names, n.wf) →
      typed_get accessControlAllowHeadersImpl
          (typed_insert accessControlAllowHeadersImpl h m) = some h) ∧
    (∀ (m : HeaderMap) (r : Referer),
      typed_get refererImpl (typed_insert refererImpl r m) = some r) ∧
    typed_get refererImpl (emptyMap.update refererName [HeaderValue.mk peopleBytes])
      = some (Referer.mk (HeaderValue.mk peopleBytes)) ∧
    refererImpl.encode (Referer.mk (HeaderValue.mk peopleBytes))
      = [HeaderValue.mk peopleBytes] := by
  refine ⟨?_, ?_, by decide, rfl⟩
  · intro m h hne hwf
    have henc : accessControlAllowHeadersImpl.encode h ≠ [] := by
      show AccessControlAllowHeaders.encode h ≠ []
      unfold AccessControlAllowHeaders.encode
      simpa [List.map_eq_nil_iff] using hne
    rw [typed_insert_eq_update accessControlAllowHeadersImpl h m henc]
    unfold typed_get
    have hat : (m.update accessControlAllowHeadersImpl.name
          (accessControlAllowHeadersImpl.encode h)) accessControlAllowHeadersImpl.name
        = accessControlAllowHeadersImpl.encode h := by
      simp [HeaderMap.update]
    rw [hat]
    show decodeResultWithPolicy (AccessControlAllowHeaders.decode
      { inner := AccessControlAllowHeaders.encode h, should_exhaust := true }) = some h
    rw [acah_decode_encode h hne hwf]
    rfl
  · intro m r
    obtain ⟨v⟩ := r
    have henc : refererImpl.encode ⟨v⟩ ≠ [] := by
      simp [refererImpl, Referer.encode]
    rw [typed_insert_eq_update refererImpl ⟨v⟩ m henc]
    unfold typed_get
    have hat : (m.update refererImpl.name (refererImpl.encode ⟨v⟩)) refererImpl.name
        = refererImpl.encode ⟨v⟩ := by
      simp [HeaderMap.update]
    rw [hat]
    rfl

/-- **C1** witness: the round trip applied to a concrete legal
`AccessControlAllowHeaders` instance over the empty map. -/
theorem typed_roundtrip_witness :
    (AccessControlAllowHeaders.mk [cacheControlName]).names ≠ [] ∧
    (∀ n ∈ (AccessControlAllowHeaders.mk [cacheControlName]).names, n.wf) ∧
    typed_get accessControlAllowHeadersImpl
        (typed_insert accessControlAllowHeadersImpl
          (AccessControlAllowHeaders.mk [cacheControlName]) emptyMap)
      = some (AccessControlAllowHeaders.mk [cacheControlName]) :=
  ⟨by decide, by decide,
   typed_roundtrip.1 emptyMap (AccessControlAllowHeaders.mk [cacheControlName])
     (by decide) (by decide)⟩

/-- **C7**: if any raw value stored under `access-control-allow-headers`
contains a comma-separated item that fails item-level (token) validation
after trimming — e.g. the raw value `"foo foo, bar"`, whose item `"foo foo"`
has an internal space — the whole decode fails: `typed_get` returns `None`,
never a partially-populated header. -/
theorem acah_invalid_item_rejected (m : HeaderMap) (v : HeaderValue)
    (hv : v ∈ m accessControlAllowHeadersImpl.name)
    (hbad : containsInvalidItem v.bytes = true) :
    typed_get accessControlAllowHeadersImpl m = none := by
  have hnone := from_bytes_none_of_invalid_item hbad
  show decodeResultWithPolicy (AccessControlAllowHeaders.decode
    { inner := m accessControlAllowHeadersImpl.name, should_exhaust := true }) = none
  exact decodeResultWithPolicy_eq_none _ (acah_decode_fst_none hv hnone)

/-- **C7** witness: the sole raw value `"foo foo, bar"` under the name makes
`typed_get` return `None`. -/
theorem acah_invalid_item_rejected_witness :
    HeaderValue.mk [102, 111, 111, 32, 102, 111, 111, 44, 32, 98, 97, 114]
      ∈ invalidItemMap accessControlAllowHeadersImpl.name ∧
    containsInvalidItem
      (HeaderValue.mk [102, 111, 111, 32, 102, 111, 111, 44, 32, 98, 97, 114]).bytes = true ∧
    typed_get accessControlAllowHeadersImpl invalidItemMap = none :=
  ⟨by decide, by decide,
   acah_invalid_item_rejected invalidItemMap
     (HeaderValue.mk [102, 111, 111, 32, 102, 111, 111, 44, 32, 98, 97, 114])
     (by decide) (by decide)⟩

/-- **C8**: `ToValues::append_fmt` panics (modelled as `none`) if and only
if the formatted text is not a legal `HeaderValue`; when the text is legal,
it appends the converted value and returns normally. -/
theorem append_fmt_panic_iff (st : TvState) (s : List Nat) :
    (TvState.append_fmt st s = none ↔ s.all isLegalValueByte = false) ∧
    (s.all isLegalValueByte = true →
      TvState.append_fmt st s = some (st.append (HeaderValue.mk s))) := by
  unfold TvState.append_fmt HeaderValue.from_shared
  cases hall : s.all isLegalValueByte <;> simp [hall]

/-- **C8** witness: the legal formatted text `"ok"` is appended without
panicking. -/
theorem append_fmt_panic_iff_witness :
    ([111, 107] : List Nat).all isLegalValueByte = true ∧
    TvState.append_fmt (.First []) [111, 107]
      = some (TvState.append (.First []) (HeaderValue.mk [111, 107])) :=
  ⟨by decide, (append_fmt_panic_iff (.First []) [111, 107]).2 (by decide)⟩

/-- **C9**: every `HeaderValueString` produced by any constructor wraps a
`HeaderValue` whose bytes are valid UTF-8; `as_str` returns the string whose
bytes equal the wrapped value's bytes; and `from_val` returns `None` exactly
when the input `HeaderValue` is not valid UTF-8. -/
theorem header_value_string_utf8_invariant :
    (∀ v : HeaderValue,
      HeaderValueString.from_val v = none ↔ utf8ValidBytes v.bytes = false) ∧
    (∀ (v : HeaderValue) (h : HeaderValueString),
      HeaderValueString.from_val v = some h →
      utf8ValidBytes h.value.bytes = true ∧ h.as_str = v.bytes) ∧
    (∀ (s : Utf8Str) (h : HeaderValueString),
      HeaderValueString.from_string s = some h →
      utf8ValidBytes h.value.bytes = true ∧ h.as_str = h.value.bytes) ∧
    (∀ (s : Utf8Str) (h : HeaderValueString),
      HeaderValueString.from_static s = some h →
      utf8ValidBytes h.value.bytes = true) ∧
    (∀ (s : Utf8Str) (h : HeaderValueString),
      HeaderValueString.from_str s = some h →
      utf8ValidBytes h.value.bytes = true) := by
  have hstring : ∀ (s : Utf8Str) (h : HeaderValueString),
      (HeaderValue.from_shared s.val).map (fun v => HeaderValueString.mk v) = some h →
      utf8ValidBytes h.value.bytes = true := by
    intro s h hs
    unfold HeaderValue.from_shared at hs
    by_cases hall : s.val.all isLegalValueByte
    · rw [if_pos hall] at hs
      simp only [Option.map_some'] at hs
      cases hs
      exact s.property
    · rw [if_neg hall] at hs
      simp at hs
  refine ⟨?_, ?_, ?_, hstring, hstring⟩
  · intro v
    unfold HeaderValueString.from_val
    cases hv : utf8ValidBytes v.bytes <;> simp [hv]
  · intro v h hs
    unfold HeaderValueString.from_val at hs
    by_cases hv : utf8ValidBytes v.bytes
    · rw [if_pos hv] at hs
      cases hs
      exact ⟨hv, rfl⟩
    · rw [if_neg hv] at hs
      cases hs
  · intro s h hs
    exact ⟨hstring s h hs, rfl⟩

/-- **C9** witness: the UTF-8 `HeaderValue` `"hi"` is accepted by `from_val`
and its `as_str` bytes are the wrapped bytes. -/
theorem header_value_string_utf8_invariant_witness :
    HeaderValueString.from_val (HeaderValue.mk [104, 105])
      = some (HeaderValueString.mk (HeaderValue.mk [104, 105])) ∧
    utf8ValidBytes (HeaderValueString.mk (HeaderValue.mk [104, 105])).value.bytes = true ∧
    (HeaderValueString.mk (HeaderValue.mk [104, 105])).as_str = [104, 105] :=
  ⟨by decide,
   (header_value_string_utf8_invariant.2.1 (HeaderValue.mk [104, 105])
      (HeaderValueString.mk (HeaderValue.mk [104, 105])) (by decide)).1,
   (header_value_string_utf8_invariant.2.1 (HeaderValue.mk [104, 105])
      (HeaderValueString.mk (HeaderValue.mk [104, 105])) (by decide)).2⟩
